import Mathlib

/-!
# Verification of the `model` package (model name and digest parsing)

This file is a shallow embedding, in Lean 4, of the Go package `model`
(types and utilities for parsing, validating, and working with model names
and digests), together with theorems settling the specification claims
about it.

Modelling conventions:

* A Go `string` is a byte sequence; every byte the package inspects is
  ASCII, and multi-byte UTF-8 runes can never equal the ASCII separators
  or pass the ASCII character-class checks, so strings are modelled as
  `List Char` compared bytewise.  `len(s)` is `List.length`.
* A Go `[32]byte` is modelled as `List Nat` whose zero value is
  `List.replicate 32 0`.
* `strings.LastIndex`-based splitting (`cutLast`) and `cmp.Or` are
  modelled directly from their documented Go semantics.
* `encoding/hex.Decode(dst, src)` writes decoded bytes into `dst`
  positionally with no bounds check; writing past the end of `dst` is a
  runtime panic (index out of range).  The model `hexDecodeAux` tracks the
  remaining room in `dst` and returns `none` exactly when such a write
  would occur; consequently `ParseDigest` returns an `Option Digest`,
  where `none` marks a panic of the Go code.
-/

/-- Go's `MissingPart` marks any part of a name that was "promised" by the
presence of a separator but is missing (`const MissingPart = "!MISSING!"`). -/
def MissingPart : List Char := ['!', 'M', 'I', 'S', 'S', 'I', 'N', 'G', '!']

/-- The five part kinds (`kindHost`, `kindNamespace`, `kindModel`,
`kindTag`, `kindDigest`). -/
inductive partKind where
  | kindHost
  | kindNamespace
  | kindModel
  | kindTag
  | kindDigest
deriving DecidableEq, Repr

export partKind (kindHost kindNamespace kindModel kindTag kindDigest)

/-- Go's `Name` is the structured representation of a model name: host,
namespace, model, tag and digest parts (all plain strings, any of which
may be empty or invalid). -/
structure Name where
  Host : List Char
  Namespace : List Char
  Model : List Char
  Tag : List Char
  RawDigest : List Char
deriving DecidableEq, Repr

/-- Go's `DefaultName` returns a name with the default host
(`registry.ollama.ai`), namespace (`library`) and tag (`latest`); the
model and digest parts are empty. -/
def DefaultName : Name :=
  { Host := ['r', 'e', 'g', 'i', 's', 't', 'r', 'y', '.', 'o', 'l', 'l', 'a', 'm', 'a', '.', 'a', 'i']
    Namespace := ['l', 'i', 'b', 'r', 'a', 'r', 'y']
    Model := []
    Tag := ['l', 'a', 't', 'e', 's', 't']
    RawDigest := [] }

/-- Go's `isAlphanumeric(c)`: ASCII letter or digit
(`c >= 'A' && c <= 'Z' || c >= 'a' && c <= 'z' || c >= '0' && c <= '9'`). -/
def isAlphanumeric (c : Char) : Bool :=
  decide (('A' ≤ c ∧ c ≤ 'Z') ∨ ('a' ≤ c ∧ c ≤ 'z') ∨ ('0' ≤ c ∧ c ≤ '9'))

/-- Go's `isValidLen(kind, s)`: host is 1–350 bytes, tag is 1–80 bytes, every
other kind is 2–80 bytes. -/
def isValidLen (kind : partKind) (s : List Char) : Bool :=
  match kind with
  | kindHost => decide (1 ≤ s.length ∧ s.length ≤ 350)
  | kindTag => decide (1 ≤ s.length ∧ s.length ≤ 80)
  | _ => decide (2 ≤ s.length ∧ s.length ≤ 80)

/-- The body of `isValidPart`'s loop for a non-leading byte: `_` and `-`
are always allowed, `.` is rejected only for namespaces, `:` is allowed
only for hosts, anything else must be alphanumeric. -/
def isValidMiddle (kind : partKind) (c : Char) : Bool :=
  if c = '_' ∨ c = '-' then true
  else if c = '.' then decide (kind ≠ kindNamespace)
  else if c = ':' then decide (kind = kindHost)
  else isAlphanumeric c

/-- The tail of `isValidPart`'s loop (all bytes after the first). -/
def isValidRest (kind : partKind) : List Char → Bool
  | [] => true
  | c :: cs => isValidMiddle kind c && isValidRest kind cs

/-- Go's `isValidPart(kind, s)`: length bounds for the kind, first byte
alphanumeric, remaining bytes per `isValidMiddle`. -/
def isValidPart (kind : partKind) (s : List Char) : Bool :=
  isValidLen kind s &&
    match s with
    | [] => true
    | c :: cs => isAlphanumeric c && isValidRest kind cs

/-- Go's `IsValidShort(namespace, model)`: the namespace and model are valid
namespace and model parts, respectively. -/
def IsValidShort (namespace' model : List Char) : Bool :=
  isValidPart kindNamespace namespace' && isValidPart kindModel model

/-- Go's `Name.IsValid()`: a model or digest part is set, and every set part is
a valid part of its positional kind. -/
def Name.IsValid (n : Name) : Bool :=
  if n.Model.isEmpty && n.RawDigest.isEmpty then false
  else
    (n.Host.isEmpty || isValidPart kindHost n.Host) &&
      ((n.Namespace.isEmpty || isValidPart kindNamespace n.Namespace) &&
        ((n.Model.isEmpty || isValidPart kindModel n.Model) &&
          ((n.Tag.isEmpty || isValidPart kindTag n.Tag) &&
            (n.RawDigest.isEmpty || isValidPart kindDigest n.RawDigest))))

/-- Go's `cutLast(s, sep)` (for the single-byte separators the package uses):
split `s` at the last occurrence of `sep`; when absent, return
`(s, "", false)`. -/
def cutLast (sep : Char) : List Char → List Char × List Char × Bool
  | [] => ([], [], false)
  | c :: cs =>
    let r := cutLast sep cs
    if r.2.2 then (c :: r.1, r.2.1, true)
    else if c = sep then ([], cs, true)
    else (c :: cs, [], false)

/-- Go's `cmp.Or(s, MissingPart)`: the string itself when non-empty, otherwise
the `MissingPart` sentinel. -/
def orMissing (s : List Char) : List Char :=
  if s.isEmpty then MissingPart else s

/-- Go's `cutPromised(s, sep)`: like `cutLast`, but when the separator is found
an empty side is replaced by `MissingPart`. -/
def cutPromised (sep : Char) (s : List Char) : List Char × List Char × Bool :=
  let r := cutLast sep s
  if r.2.2 then (orMissing r.1, orMissing r.2.1, true) else r

/-- The model/namespace/host phase of `ParseNameNoDefaults` (the two
right-to-left cuts at `/` after the digest and tag have been removed). -/
def parseModelPart (s : List Char) : Name :=
  match cutPromised '/' s with
  | (s₂, mdl, pm) =>
    if pm then
      match cutPromised '/' s₂ with
      | (s₃, ns, pn) =>
        if pn then ⟨s₃, ns, mdl, [], []⟩
        else ⟨[], s₃, mdl, [], []⟩
    else ⟨[], [], s₂, [], []⟩

/-- The tag phase of `ParseNameNoDefaults` (the cut at the last `:`),
followed by the model/namespace/host phase. -/
def parseNamePart (s : List Char) : Name :=
  match cutPromised ':' s with
  | (s₁, tag, _) => { parseModelPart s₁ with Tag := tag }

/-- Go's `ParseNameNoDefaults(s)`: parse a name without filling in missing
parts.  The digest is cut first at the last `@` (only the digest side of
`@` is promised: an empty right side becomes `MissingPart`, an empty name
side is allowed), then the tag at the last `:`, then model, namespace and
host at the last two `/`. -/
def ParseNameNoDefaults (s : List Char) : Name :=
  match cutLast '@' s with
  | (s₀, rd0, pd) =>
    { parseNamePart s₀ with
      RawDigest := if pd && rd0.isEmpty then MissingPart else rd0 }

/-- Go's `cmp.Or` on two strings: the first when non-empty, otherwise the
second. -/
def cmpOr (a b : List Char) : List Char :=
  if a.isEmpty then b else a

/-- Go's `Name.Merge(o)`: fill the host, namespace and tag parts from `o` when
they are empty in `n`; the model and digest parts are never modified. -/
def Name.Merge (n o : Name) : Name :=
  { n with
    Host := cmpOr n.Host o.Host
    Namespace := cmpOr n.Namespace o.Namespace
    Tag := cmpOr n.Tag o.Tag }

/-- Go's `ParseName(s)`: `ParseNameNoDefaults` merged with `DefaultName`. -/
def ParseName (s : List Char) : Name :=
  (ParseNameNoDefaults s).Merge DefaultName

/-- Go's `Name.String()`: `host/` and `namespace/` when non-empty, the model,
then `:tag` and `@rawDigest` when non-empty. -/
def Name.String (n : Name) : List Char :=
  (if n.Host.isEmpty then [] else n.Host ++ ['/']) ++
    ((if n.Namespace.isEmpty then [] else n.Namespace ++ ['/']) ++
      (n.Model ++
        ((if n.Tag.isEmpty then [] else ':' :: n.Tag) ++
          (if n.RawDigest.isEmpty then [] else '@' :: n.RawDigest))))

/-- Go's `type DigestType int`; the zero value (0) is the invalid unknown type. -/
abbrev DigestType := Int

/-- Go's `DigestTypeSHA256 DigestType = iota + 1`. -/
def DigestTypeSHA256 : DigestType := 1

/-- The characters of the literal `"sha256"`. -/
def sha256Lit : List Char := ['s', 'h', 'a', '2', '5', '6']

/-- Go's `DigestType.String()`: `"sha256"` for the recognized type, otherwise
`"unknown"`. -/
def DigestType.toChars (t : DigestType) : List Char :=
  if t = DigestTypeSHA256 then sha256Lit
  else ['u', 'n', 'k', 'n', 'o', 'w', 'n']

/-- Go's `Digest` is a type and hash pair.  The Go field `Type` is called `Typ`
here (`Type` is reserved in Lean); `Hash [32]byte` is a byte list whose
zero value is `List.replicate 32 0`. -/
structure Digest where
  Typ : DigestType
  Hash : List Nat
deriving DecidableEq, Repr

/-- The zero `Digest` (`Digest{}`). -/
def Digest.zero : Digest := ⟨0, List.replicate 32 0⟩

/-- Go's `Digest.IsValid()`: the type is the recognized SHA-256 type and the
hash is not the all-zero value. -/
def Digest.IsValid (d : Digest) : Bool :=
  if d.Typ ≠ DigestTypeSHA256 then false
  else decide (d.Hash ≠ List.replicate 32 0)

/-- Go's `hex.fromHexChar`: the value of one hexadecimal digit (`0-9`, `a-f`,
`A-F`). -/
def fromHexChar (c : Char) : Option Nat :=
  if '0' ≤ c ∧ c ≤ '9' then some (c.toNat - 48)
  else if 'a' ≤ c ∧ c ≤ 'f' then some (c.toNat - 97 + 10)
  else if 'A' ≤ c ∧ c ≤ 'F' then some (c.toNat - 65 + 10)
  else none

/-- The digit characters of `hex.EncodeToString`'s table
`"0123456789abcdef"`. -/
def hexDigitChar (n : Nat) : Char :=
  if n < 10 then Char.ofNat (48 + n) else Char.ofNat (87 + n)

/-- Go's `hex.EncodeToString`: each byte becomes its two lowercase hex digits. -/
def hexEncode : List Nat → List Char
  | [] => []
  | b :: bs => hexDigitChar (b / 16) :: hexDigitChar (b % 16) :: hexEncode bs

/-- Go's `Digest.String()`: the type name, `-`, and the lowercase hex encoding
of the hash. -/
def Digest.String (d : Digest) : List Char :=
  DigestType.toChars d.Typ ++ '-' :: hexEncode d.Hash

/-- Go's `hex.Decode(dst, src)` with `room` bytes of space left in `dst`:
processes `src` two digits at a time, writing `a<<4 | b` (`= a*16 + b`)
for each valid pair.  Result `some (bytes, err)` gives the decoded bytes
and whether an error (invalid byte, or odd length) was returned; `none`
means the Go code panicked by writing past the end of `dst`. -/
def hexDecodeAux (room : Nat) : List Char → Option (List Nat × Bool)
  | [] => some ([], false)
  | [_] => some ([], true)
  | p :: q :: rest =>
    match fromHexChar p, fromHexChar q with
    | some a, some b =>
      match room with
      | 0 => none
      | room' + 1 =>
        match hexDecodeAux room' rest with
        | none => none
        | some (bs, e) => some ((a * 16 + b) :: bs, e)
    | _, _ => some ([], true)

/-- Go's `ParseDigest(s)`: split at the last `:` (or, failing that, the last
`-`), require the type `sha256`, and hex-decode the hash into the 32-byte
buffer `d.Hash[:]`; any decode error or a byte count other than 32 yields
the zero digest.  `none` marks the panic of the unchecked
`hex.Decode` write (see `hexDecodeAux`). -/
def ParseDigest (s : List Char) : Option Digest :=
  let r0 := cutLast ':' s
  let r := if r0.2.2 then r0 else cutLast '-' s
  if !r.2.2 then some Digest.zero
  else if r.1 ≠ sha256Lit then some Digest.zero
  else
    match hexDecodeAux 32 r.2.1 with
    | none => none
    | some (bs, e) =>
      if e || !(bs.length = 32 : Bool) then some Digest.zero
      else some ⟨DigestTypeSHA256, bs⟩

/-- Go's `Name.Digest()`: `ParseDigest` of the raw digest field. -/
def Name.Digest (n : Name) : Option Digest :=
  ParseDigest n.RawDigest

/-- The host/namespace/model text of a name, as `Name.String` emits it
before the tag and digest. -/
def nameCore (x : Name) : List Char :=
  (if x.Host.isEmpty then [] else x.Host ++ ['/']) ++
    ((if x.Namespace.isEmpty then [] else x.Namespace ++ ['/']) ++ x.Model)

/-- The spec's "ASCII letter or digit". -/
def specAlnum (c : Char) : Prop :=
  ('A' ≤ c ∧ c ≤ 'Z') ∨ ('a' ≤ c ∧ c ≤ 'z') ∨ ('0' ≤ c ∧ c ≤ '9')

/-- The spec's length bounds: host 1–350, tag 1–80, namespace/model/digest
2–80. -/
def specLenOK (kind : partKind) (n : Nat) : Prop :=
  match kind with
  | kindHost => 1 ≤ n ∧ n ≤ 350
  | kindTag => 1 ≤ n ∧ n ≤ 80
  | _ => 2 ≤ n ∧ n ≤ 80

/-- The spec's rule for a byte after the first: alphanumeric, `_` or `-`
unconditionally, `.` for every kind except namespace, `:` only for host. -/
def specMiddle (kind : partKind) (c : Char) : Prop :=
  specAlnum c ∨ c = '_' ∨ c = '-' ∨
    (c = '.' ∧ kind ≠ kindNamespace) ∨ (c = ':' ∧ kind = kindHost)

instance (c : Char) : Decidable (specAlnum c) := by
  unfold specAlnum
  infer_instance

instance (k : partKind) (c : Char) : Decidable (specMiddle k c) := by
  unfold specMiddle
  infer_instance

/-- The claim's "separator whose promised adjacent content is empty",
expressed over the parser's right-to-left cuts: a found `@` with an empty
right side, a found `:` with an empty side, or a found `/` (at either
position) with an empty side. -/
def hasEmptyPromise (s : List Char) : Bool :=
  let p1 := cutLast '@' s
  let p2 := cutLast ':' p1.1
  let s1 := (cutPromised ':' p1.1).1
  let p3 := cutLast '/' s1
  let s2 := (cutPromised '/' s1).1
  let p4 := cutLast '/' s2
  (p1.2.2 && p1.2.1.isEmpty) ||
    ((p2.2.2 && (p2.1.isEmpty || p2.2.1.isEmpty)) ||
      ((p3.2.2 && (p3.1.isEmpty || p3.2.1.isEmpty)) ||
        (p4.2.2 && (p4.1.isEmpty || p4.2.1.isEmpty))))

/-- The sixteen lowercase hexadecimal digit characters, `0-9` then `a-f`. -/
def lowerHexChars : List Char :=
  (List.range 10).map (fun n => Char.ofNat (48 + n)) ++
    (List.range 6).map (fun n => Char.ofNat (97 + n))

/-- The value of a hex digit (0 for non-digits). -/
def hexVal (c : Char) : Nat := (fromHexChar c).getD 0

/-! ## Properties of `cutLast` -/

theorem cutLast_not_found (sep : Char) :
    ∀ {s b a : List Char}, cutLast sep s = (b, a, false) →
      b = s ∧ a = [] ∧ sep ∉ s := by
  intro s
  induction s with
  | nil =>
    intro b a h
    simp only [cutLast, Prod.mk.injEq] at h
    simp [← h.1, ← h.2.1]
  | cons c cs ih =>
    intro b a h
    rcases hcs : cutLast sep cs with ⟨b', a', ok⟩
    rw [cutLast, hcs] at h
    cases ok with
    | true => simp at h
    | false =>
      by_cases hc : c = sep
      · simp [hc] at h
      · simp only [Bool.false_eq_true, if_false, if_neg hc, Prod.mk.injEq] at h
        obtain ⟨h1, h2, -⟩ := h
        obtain ⟨-, -, hmem⟩ := ih hcs
        refine ⟨h1.symm, h2.symm, ?_⟩
        intro hin
        rcases List.mem_cons.1 hin with h | h
        · exact hc h.symm
        · exact hmem h

theorem cutLast_found (sep : Char) :
    ∀ {s b a : List Char}, cutLast sep s = (b, a, true) →
      s = b ++ sep :: a ∧ sep ∉ a := by
  intro s
  induction s with
  | nil => intro b a h; simp [cutLast] at h
  | cons c cs ih =>
    intro b a h
    rcases hcs : cutLast sep cs with ⟨b', a', ok⟩
    rw [cutLast, hcs] at h
    cases ok with
    | true =>
      simp only [if_true, Prod.mk.injEq] at h
      obtain ⟨h1, h2, -⟩ := h
      obtain ⟨hcs', hmem⟩ := ih hcs
      subst h1; subst h2
      exact ⟨by rw [hcs']; rfl, hmem⟩
    | false =>
      by_cases hc : c = sep
      · simp only [Bool.false_eq_true, if_false, if_pos hc, Prod.mk.injEq] at h
        obtain ⟨h1, h2, -⟩ := h
        obtain ⟨-, -, hmem⟩ := cutLast_not_found sep hcs
        subst h1; subst h2; subst hc
        exact ⟨rfl, hmem⟩
      · simp [hc] at h

theorem cutLast_of_not_mem {sep : Char} :
    ∀ {s : List Char}, sep ∉ s → cutLast sep s = (s, [], false) := by
  intro s
  induction s with
  | nil => intro _; rfl
  | cons c cs ih =>
    intro h
    have hc : ¬c = sep := fun he => h (by simp [he])
    have hcs : sep ∉ cs := fun hm => h (List.mem_cons_of_mem c hm)
    rw [cutLast, ih hcs]
    simp [hc]

theorem cutLast_append {sep : Char} (b : List Char) {a : List Char}
    (h : sep ∉ a) : cutLast sep (b ++ sep :: a) = (b, a, true) := by
  induction b with
  | nil =>
    rw [List.nil_append, cutLast, cutLast_of_not_mem h]
    simp
  | cons c b ih =>
    rw [List.cons_append, cutLast, ih]
    simp

/-! ## The `MissingPart` sentinel is invalid for every part kind -/

theorem isValidPart_missing : ∀ k, isValidPart k MissingPart = false := by
  intro k; cases k <;> decide

theorem missing_ne_nil : MissingPart ≠ [] := by decide

theorem missing_not_isEmpty : MissingPart.isEmpty = false := by decide

theorem isValid_false_of_host {n : Name} (h : n.Host = MissingPart) :
    n.IsValid = false := by
  rw [Name.IsValid]
  split
  · rfl
  · rw [h]
    simp [isValidPart_missing, missing_not_isEmpty]

theorem isValid_false_of_namespace {n : Name} (h : n.Namespace = MissingPart) :
    n.IsValid = false := by
  rw [Name.IsValid]
  split
  · rfl
  · rw [h]
    simp [isValidPart_missing, missing_not_isEmpty]

theorem isValid_false_of_model {n : Name} (h : n.Model = MissingPart) :
    n.IsValid = false := by
  rw [Name.IsValid]
  split
  · rfl
  · rw [h]
    simp [isValidPart_missing, missing_not_isEmpty]

theorem isValid_false_of_tag {n : Name} (h : n.Tag = MissingPart) :
    n.IsValid = false := by
  rw [Name.IsValid]
  split
  · rfl
  · rw [h]
    simp [isValidPart_missing, missing_not_isEmpty]

theorem isValid_false_of_rawDigest {n : Name} (h : n.RawDigest = MissingPart) :
    n.IsValid = false := by
  rw [Name.IsValid]
  split
  · rfl
  · rw [h]
    simp [isValidPart_missing, missing_not_isEmpty]

theorem valid_not_missing {n : Name} (h : n.IsValid = true) :
    n.Host ≠ MissingPart ∧ n.Namespace ≠ MissingPart ∧ n.Model ≠ MissingPart ∧
      n.Tag ≠ MissingPart ∧ n.RawDigest ≠ MissingPart := by
  refine ⟨fun he => ?_, fun he => ?_, fun he => ?_, fun he => ?_, fun he => ?_⟩
  · simp [isValid_false_of_host he] at h
  · simp [isValid_false_of_namespace he] at h
  · simp [isValid_false_of_model he] at h
  · simp [isValid_false_of_tag he] at h
  · simp [isValid_false_of_rawDigest he] at h

/-! ## Reconstruction: `String` of a parse -/

theorem isEmpty_false_of_ne {l : List Char} (h : l ≠ []) : l.isEmpty = false := by
  cases l with
  | nil => exact absurd rfl h
  | cons c cs => rfl

theorem orMissing_nil : orMissing [] = MissingPart := rfl

theorem orMissing_of_ne {s : List Char} (h : s ≠ []) : orMissing s = s := by
  rw [orMissing, isEmpty_false_of_ne h]
  rfl

theorem cutPromised_found {sep : Char} {s b a : List Char}
    (h : cutLast sep s = (b, a, true)) :
    cutPromised sep s = (orMissing b, orMissing a, true) := by
  simp [cutPromised, h]

theorem cutPromised_not_found {sep : Char} {s b a : List Char}
    (h : cutLast sep s = (b, a, false)) :
    cutPromised sep s = (b, a, false) := by
  simp [cutPromised, h]

theorem string_eq_core (x : Name) :
    Name.String x = nameCore x ++
      ((if x.Tag.isEmpty then [] else ':' :: x.Tag) ++
        (if x.RawDigest.isEmpty then [] else '@' :: x.RawDigest)) := by
  simp [Name.String, nameCore, List.append_assoc]

theorem parseModelPart_tag_digest (s : List Char) :
    (parseModelPart s).Tag = [] ∧ (parseModelPart s).RawDigest = [] := by
  rcases h2 : cutPromised '/' s with ⟨s2, mdl, pm⟩
  rcases h3 : cutPromised '/' s2 with ⟨s3, ns, pn⟩
  cases pm <;> cases pn <;> simp [parseModelPart, h2, h3]

theorem parseModelPart_missing :
    parseModelPart MissingPart = ⟨[], [], MissingPart, [], []⟩ := by decide

theorem parseModelPart_core (s : List Char)
    (hH : (parseModelPart s).Host ≠ MissingPart)
    (hN : (parseModelPart s).Namespace ≠ MissingPart)
    (hM : (parseModelPart s).Model ≠ MissingPart) :
    nameCore (parseModelPart s) = s := by
  rcases h2 : cutLast '/' s with ⟨b, a, pm⟩
  cases pm with
  | false =>
    obtain ⟨hb, -, -⟩ := cutLast_not_found '/' h2
    have hps : parseModelPart s = ⟨[], [], s, [], []⟩ := by
      simp [parseModelPart, cutPromised_not_found h2, hb]
    rw [hps]
    simp [nameCore]
  | true =>
    obtain ⟨hs, hmem⟩ := cutLast_found '/' h2
    have hcp := cutPromised_found h2
    by_cases ha : a = []
    · exfalso
      apply hM
      subst ha
      simp [parseModelPart, hcp, orMissing_nil]
      split <;> rfl
    · have hma : orMissing a = a := orMissing_of_ne ha
      by_cases hb : b = []
      · exfalso
        apply hN
        subst hb
        have h3 : cutPromised '/' MissingPart = (MissingPart, [], false) := by
          decide
        simp [parseModelPart, hcp, orMissing_nil, hma, h3]
      · have hmb : orMissing b = b := orMissing_of_ne hb
        rcases h3 : cutLast '/' b with ⟨b2, a2, pn⟩
        cases pn with
        | false =>
          obtain ⟨hb2, -, -⟩ := cutLast_not_found '/' h3
          have hps : parseModelPart s = ⟨[], b, a, [], []⟩ := by
            simp [parseModelPart, hcp, hma, hmb, cutPromised_not_found h3, hb2]
          rw [hps, hs]
          simp [nameCore, isEmpty_false_of_ne hb]
        | true =>
          obtain ⟨hbs, hmem2⟩ := cutLast_found '/' h3
          have hcp2 := cutPromised_found h3
          by_cases ha2 : a2 = []
          · exfalso
            apply hN
            subst ha2
            simp [parseModelPart, hcp, hma, hmb, hcp2, orMissing_nil]
          · by_cases hb2 : b2 = []
            · exfalso
              apply hH
              subst hb2
              simp [parseModelPart, hcp, hma, hmb, hcp2, orMissing_nil,
                orMissing_of_ne ha2]
            · have hps : parseModelPart s = ⟨b2, a2, a, [], []⟩ := by
                simp [parseModelPart, hcp, hma, hmb, hcp2,
                  orMissing_of_ne ha2, orMissing_of_ne hb2]
              rw [hps, hs, hbs]
              simp [nameCore, isEmpty_false_of_ne hb2, isEmpty_false_of_ne ha2]

theorem parseNamePart_digest (s : List Char) :
    (parseNamePart s).RawDigest = [] := by
  rcases h1 : cutPromised ':' s with ⟨s1, tag, tp⟩
  simp [parseNamePart, h1, (parseModelPart_tag_digest s1).2]

theorem parseNamePart_core (s : List Char)
    (hH : (parseNamePart s).Host ≠ MissingPart)
    (hN : (parseNamePart s).Namespace ≠ MissingPart)
    (hM : (parseNamePart s).Model ≠ MissingPart)
    (hT : (parseNamePart s).Tag ≠ MissingPart) :
    nameCore (parseNamePart s) ++
      (if (parseNamePart s).Tag.isEmpty then []
        else ':' :: (parseNamePart s).Tag) = s := by
  rcases h1 : cutLast ':' s with ⟨b, a, tp⟩
  cases tp with
  | false =>
    obtain ⟨hb, hae, -⟩ := cutLast_not_found ':' h1
    have htd := (parseModelPart_tag_digest s).1
    have hps : parseNamePart s = parseModelPart s := by
      have h2 : parseNamePart s = { parseModelPart s with Tag := [] } := by
        simp [parseNamePart, cutPromised_not_found h1, hb, hae]
      rw [h2, ← htd]
    rw [hps] at hH hN hM ⊢
    rw [htd]
    simp only [List.isEmpty_nil, if_true, List.append_nil]
    exact parseModelPart_core s hH hN hM
  | true =>
    obtain ⟨hs, hmem⟩ := cutLast_found ':' h1
    have hcp := cutPromised_found h1
    by_cases ha : a = []
    · exfalso
      apply hT
      subst ha
      simp [parseNamePart, hcp, orMissing_nil]
    · have hma := orMissing_of_ne ha
      by_cases hb : b = []
      · exfalso
        apply hM
        subst hb
        simp [parseNamePart, hcp, orMissing_nil, hma, parseModelPart_missing]
      · have hmb := orMissing_of_ne hb
        have hps : parseNamePart s = { parseModelPart b with Tag := a } := by
          simp [parseNamePart, hcp, hma, hmb]
        rw [hps] at hH hN hM ⊢
        have hcore := parseModelPart_core b (by simpa using hH)
          (by simpa using hN) (by simpa using hM)
        show nameCore (parseModelPart b) ++ (if a.isEmpty then [] else ':' :: a) = s
        rw [hcore, isEmpty_false_of_ne ha, hs]
        rfl

theorem parseNoDefaults_recon (s : List Char)
    (hH : (ParseNameNoDefaults s).Host ≠ MissingPart)
    (hN : (ParseNameNoDefaults s).Namespace ≠ MissingPart)
    (hM : (ParseNameNoDefaults s).Model ≠ MissingPart)
    (hT : (ParseNameNoDefaults s).Tag ≠ MissingPart)
    (hD : (ParseNameNoDefaults s).RawDigest ≠ MissingPart) :
    (ParseNameNoDefaults s).String = s := by
  rcases h0 : cutLast '@' s with ⟨s0, rd0, pd⟩
  cases pd with
  | false =>
    obtain ⟨hb, ha, -⟩ := cutLast_not_found '@' h0
    have hdg := parseNamePart_digest s
    have hps : ParseNameNoDefaults s = parseNamePart s := by
      have h2 : ParseNameNoDefaults s = { parseNamePart s with RawDigest := [] } := by
        simp [ParseNameNoDefaults, h0, hb, ha]
      rw [h2, ← hdg]
    rw [hps] at hH hN hM hT ⊢
    rw [string_eq_core, hdg]
    simp only [List.isEmpty_nil, if_true, List.append_nil]
    exact parseNamePart_core s hH hN hM hT
  | true =>
    obtain ⟨hs, hmem⟩ := cutLast_found '@' h0
    by_cases hrd : rd0 = []
    · exfalso
      apply hD
      subst hrd
      simp [ParseNameNoDefaults, h0]
    · have hps : ParseNameNoDefaults s =
          { parseNamePart s0 with RawDigest := rd0 } := by
        simp [ParseNameNoDefaults, h0, isEmpty_false_of_ne hrd]
      rw [hps] at hH hN hM hT ⊢
      have hcore := parseNamePart_core s0 (by simpa using hH) (by simpa using hN)
        (by simpa using hM) (by simpa using hT)
      have hdig : (if rd0.isEmpty then ([] : List Char) else '@' :: rd0) =
          '@' :: rd0 := by
        rw [isEmpty_false_of_ne hrd]
        rfl
      rw [string_eq_core]
      show nameCore (parseNamePart s0) ++
        ((if (parseNamePart s0).Tag.isEmpty then []
          else ':' :: (parseNamePart s0).Tag) ++
          (if rd0.isEmpty then [] else '@' :: rd0)) = s
      rw [hdig, hs, ← List.append_assoc, hcore]

/-! ## Claim theorems (part 1) -/

/-- C1: for every input string `s`, if parsing `s` without defaults yields
a `Name` that `IsValid` accepts, then `String` of that `Name` is
byte-identical to `s`. -/
theorem parse_then_format_roundtrip (s : List Char)
    (h : (ParseNameNoDefaults s).IsValid = true) :
    (ParseNameNoDefaults s).String = s := by
  obtain ⟨h1, h2, h3, h4, h5⟩ := valid_not_missing h
  exact parseNoDefaults_recon s h1 h2 h3 h4 h5

/-- Witness for C1 at the concrete input `"ab/cd"`. -/
theorem parse_then_format_roundtrip_witness :
    (ParseNameNoDefaults ['a', 'b', '/', 'c', 'd']).IsValid = true ∧
    (ParseNameNoDefaults ['a', 'b', '/', 'c', 'd']).String =
      ['a', 'b', '/', 'c', 'd'] :=
  ⟨by decide, parse_then_format_roundtrip ['a', 'b', '/', 'c', 'd'] (by decide)⟩

theorem emptyOr_iff (l : List Char) (b : Bool) :
    (l.isEmpty || b) = true ↔ (l ≠ [] → b = true) := by
  cases l <;> simp

theorem isValid_iff (n : Name) :
    n.IsValid = true ↔
      ((n.Model ≠ [] ∨ n.RawDigest ≠ []) ∧
        (n.Host ≠ [] → isValidPart kindHost n.Host = true) ∧
        (n.Namespace ≠ [] → isValidPart kindNamespace n.Namespace = true) ∧
        (n.Model ≠ [] → isValidPart kindModel n.Model = true) ∧
        (n.Tag ≠ [] → isValidPart kindTag n.Tag = true) ∧
        (n.RawDigest ≠ [] → isValidPart kindDigest n.RawDigest = true)) := by
  rw [Name.IsValid]
  split
  · rename_i hc
    rw [Bool.and_eq_true] at hc
    simp only [List.isEmpty_iff] at hc
    simp [hc.1, hc.2]
  · rename_i hc
    rw [Bool.and_eq_true] at hc
    simp only [List.isEmpty_iff] at hc
    simp only [Bool.and_eq_true, emptyOr_iff]
    constructor
    · intro hh
      exact ⟨by tauto, hh.1, hh.2.1, hh.2.2.1, hh.2.2.2.1, hh.2.2.2.2⟩
    · intro hh
      exact ⟨hh.2.1, hh.2.2.1, hh.2.2.2.1, hh.2.2.2.2.1, hh.2.2.2.2.2⟩

/-- C8: `Merge` fills host, namespace and tag from `o` exactly when they
are empty in `n`, and never changes the model or raw digest (both names
are immutable values; `o` itself is not modified). -/
theorem merge_spec (n o : Name) :
    (n.Merge o).Host = (if n.Host = [] then o.Host else n.Host) ∧
    (n.Merge o).Namespace =
      (if n.Namespace = [] then o.Namespace else n.Namespace) ∧
    (n.Merge o).Tag = (if n.Tag = [] then o.Tag else n.Tag) ∧
    (n.Merge o).Model = n.Model ∧
    (n.Merge o).RawDigest = n.RawDigest := by
  have hcmp : ∀ a b : List Char, cmpOr a b = if a = [] then b else a := by
    intro a b
    cases a <;> simp [cmpOr]
  exact ⟨hcmp n.Host o.Host, hcmp n.Namespace o.Namespace,
    hcmp n.Tag o.Tag, rfl, rfl⟩

/-- C10: the documentation of `IsValidShort` claims it equals
`(Name{Namespace: namespace, Model: model}).IsValid()`, but at
`namespace = ""`, `model = "xx"` the two sides differ: the code bug. -/
theorem isValidShort_mismatch :
    IsValidShort [] ['x', 'x'] = false ∧
    (Name.mk [] [] ['x', 'x'] [] []).IsValid = true := by decide

set_option maxRecDepth 8000

/-- C7: a digest is valid exactly when its type is the recognized SHA-256
type and its hash is not all-zero; in particular `sha256:` followed by 64
`'0'` digits decodes successfully yet yields an invalid digest. -/
theorem digest_isValid_characterized :
    (∀ d : Digest, d.IsValid = true ↔
      (d.Typ = DigestTypeSHA256 ∧ d.Hash ≠ List.replicate 32 0)) ∧
    ParseDigest (sha256Lit ++ ':' :: List.replicate 64 '0') =
      some ⟨DigestTypeSHA256, List.replicate 32 0⟩ ∧
    Digest.IsValid ⟨DigestTypeSHA256, List.replicate 32 0⟩ = false := by
  refine ⟨fun d => ?_, by decide, by decide⟩
  rw [Digest.IsValid]
  split
  · rename_i h
    simp [h]
  · rename_i h
    rw [not_not] at h
    simp [h]

/-- C5 (code bug): `ParseDigest` is not total.  On `"sha256:"` followed by
66 hex digits, `hex.Decode` writes past the end of the 32-byte `Hash`
buffer and the Go code panics with an index-out-of-range runtime error
(`none` in this model). -/
theorem parseDigest_fault_on_long_hash :
    ParseDigest (sha256Lit ++ ':' :: List.replicate 66 'a') = none := by decide

/-! ## Characterizing the part validator (C4) -/

theorem isAlphanumeric_iff (c : Char) :
    isAlphanumeric c = true ↔ specAlnum c := by
  simp [isAlphanumeric, specAlnum]

theorem isValidLen_iff (k : partKind) (s : List Char) :
    isValidLen k s = true ↔ specLenOK k s.length := by
  cases k <;> simp [isValidLen, specLenOK]

theorem isValidMiddle_iff (k : partKind) (c : Char) :
    isValidMiddle k c = true ↔ specMiddle k c := by
  rw [isValidMiddle]
  by_cases h1 : c = '_' ∨ c = '-'
  · rw [if_pos h1]
    constructor
    · intro _
      rcases h1 with h | h
      · exact Or.inr (Or.inl h)
      · exact Or.inr (Or.inr (Or.inl h))
    · intro _
      rfl
  · rw [if_neg h1]
    by_cases h2 : c = '.'
    · subst h2
      rw [if_pos rfl]
      constructor
      · intro h
        exact Or.inr (Or.inr (Or.inr (Or.inl ⟨rfl, of_decide_eq_true h⟩)))
      · rintro (h | h | h | ⟨-, h⟩ | ⟨h, -⟩)
        · exact absurd h (by decide)
        · exact absurd h (by decide)
        · exact absurd h (by decide)
        · exact decide_eq_true h
        · exact absurd h (by decide)
    · rw [if_neg h2]
      by_cases h3 : c = ':'
      · subst h3
        rw [if_pos rfl]
        constructor
        · intro h
          exact Or.inr (Or.inr (Or.inr (Or.inr ⟨rfl, of_decide_eq_true h⟩)))
        · rintro (h | h | h | ⟨h, -⟩ | ⟨-, h⟩)
          · exact absurd h (by decide)
          · exact absurd h (by decide)
          · exact absurd h (by decide)
          · exact absurd h (by decide)
          · exact decide_eq_true h
      · rw [if_neg h3, isAlphanumeric_iff]
        constructor
        · intro h
          exact Or.inl h
        · rintro (h | h | h | ⟨h, -⟩ | ⟨h, -⟩)
          · exact h
          · exact absurd (Or.inl h) h1
          · exact absurd (Or.inr h) h1
          · exact absurd h h2
          · exact absurd h h3

theorem isValidRest_iff (k : partKind) (cs : List Char) :
    isValidRest k cs = true ↔ ∀ b ∈ cs, specMiddle k b := by
  induction cs with
  | nil => simp [isValidRest]
  | cons c cs ih => simp [isValidRest, Bool.and_eq_true, isValidMiddle_iff, ih]

theorem isValidPart_iff (k : partKind) (s : List Char) :
    isValidPart k s = true ↔
      (specLenOK k s.length ∧
        ∃ c cs, s = c :: cs ∧ specAlnum c ∧ ∀ b ∈ cs, specMiddle k b) := by
  cases s with
  | nil =>
    constructor
    · intro h
      exact absurd h (by cases k <;> decide)
    · rintro ⟨-, c, cs, hcs, -⟩
      exact List.noConfusion hcs
  | cons c cs =>
    rw [isValidPart]
    simp only [Bool.and_eq_true, isValidLen_iff, isAlphanumeric_iff,
      isValidRest_iff]
    constructor
    · rintro ⟨hlen, ha, hr⟩
      exact ⟨hlen, c, cs, rfl, ha, hr⟩
    · rintro ⟨hlen, c', cs', heq, ha, hr⟩
      obtain ⟨rfl, rfl⟩ : c = c' ∧ cs = cs' := by
        injection heq with hx hy
        exact ⟨hx, hy⟩
      exact ⟨hlen, ha, hr⟩

/-! ## Valid parts contain no separators (except `:` in hosts) -/

theorem specMiddle_not_slash (k : partKind) : ¬specMiddle k '/' := by
  cases k <;> decide

theorem specMiddle_not_at (k : partKind) : ¬specMiddle k '@' := by
  cases k <;> decide

theorem specMiddle_colon {k : partKind} (h : specMiddle k ':') :
    k = kindHost := by
  rcases h with h | h | h | ⟨h, -⟩ | ⟨-, h⟩
  · exact absurd h (by decide)
  · exact absurd h (by decide)
  · exact absurd h (by decide)
  · exact absurd h (by decide)
  · exact h

theorem valid_part_not_mem {k : partKind} {p : List Char}
    (h : isValidPart k p = true) :
    '/' ∉ p ∧ '@' ∉ p ∧ (k = kindHost ∨ ':' ∉ p) := by
  obtain ⟨-, c, cs, rfl, ha, hr⟩ := (isValidPart_iff k p).1 h
  have key : ∀ x : Char, x ∈ c :: cs → specAlnum x ∨ specMiddle k x := by
    intro x hx
    rcases List.mem_cons.1 hx with rfl | hx
    · exact Or.inl ha
    · exact Or.inr (hr x hx)
  refine ⟨fun hm => ?_, fun hm => ?_, ?_⟩
  · rcases key '/' hm with h' | h'
    · exact absurd h' (by decide)
    · exact specMiddle_not_slash k h'
  · rcases key '@' hm with h' | h'
    · exact absurd h' (by decide)
    · exact specMiddle_not_at k h'
  · by_cases hk : k = kindHost
    · exact Or.inl hk
    · refine Or.inr (fun hm => ?_)
      rcases key ':' hm with h' | h'
      · exact absurd h' (by decide)
      · exact hk (specMiddle_colon h')

/-! ## Parsing a formatted name (the exact-round-trip direction) -/

theorem parseModelPart_of_parts (hst ns m : List Char)
    (hns : '/' ∉ ns) (hm : '/' ∉ m)
    (h1 : hst ≠ [] → ns ≠ []) (h2 : ns ≠ [] → m ≠ []) :
    parseModelPart (nameCore ⟨hst, ns, m, [], []⟩) = ⟨hst, ns, m, [], []⟩ := by
  by_cases hnsE : ns = []
  · have hstE : hst = [] := by
      by_contra hh
      exact (h1 hh) hnsE
    subst hnsE
    subst hstE
    have hc : nameCore ⟨[], [], m, [], []⟩ = m := by simp [nameCore]
    rw [hc]
    simp [parseModelPart, cutPromised_not_found (cutLast_of_not_mem hm)]
  · have hmE : m ≠ [] := h2 hnsE
    by_cases hstE : hst = []
    · subst hstE
      have hc : nameCore ⟨[], ns, m, [], []⟩ = ns ++ '/' :: m := by
        simp [nameCore, isEmpty_false_of_ne hnsE]
      rw [hc]
      simp [parseModelPart, cutPromised_found (cutLast_append ns hm),
        orMissing_of_ne hnsE, orMissing_of_ne hmE,
        cutPromised_not_found (cutLast_of_not_mem hns)]
    · have hc : nameCore ⟨hst, ns, m, [], []⟩ = (hst ++ '/' :: ns) ++ '/' :: m := by
        simp [nameCore, isEmpty_false_of_ne hnsE, isEmpty_false_of_ne hstE]
      have hmid : hst ++ '/' :: ns ≠ [] := by simp
      have e1 : cutPromised '/' ((hst ++ '/' :: ns) ++ '/' :: m) =
          (hst ++ '/' :: ns, m, true) := by
        rw [cutPromised_found (cutLast_append (hst ++ '/' :: ns) hm),
          orMissing_of_ne hmid, orMissing_of_ne hmE]
      have e2 : cutPromised '/' (hst ++ '/' :: ns) = (hst, ns, true) := by
        rw [cutPromised_found (cutLast_append hst hns),
          orMissing_of_ne hstE, orMissing_of_ne hnsE]
      rw [hc]
      simp only [parseModelPart, e1, e2]
      simp

theorem not_mem_slashPart {c : Char} {x : List Char} (hx : c ∉ x)
    (hcs : c ≠ '/') :
    c ∉ (if x.isEmpty then ([] : List Char) else x ++ ['/']) := by
  split
  · simp
  · intro h
    rcases List.mem_append.1 h with h | h
    · exact hx h
    · simp at h
      exact hcs h

theorem not_mem_core (c : Char) {hst ns m t d : List Char}
    (hcs : c ≠ '/') (hH : c ∉ hst) (hN : c ∉ ns) (hM : c ∉ m) :
    c ∉ nameCore ⟨hst, ns, m, t, d⟩ := by
  intro h
  rw [nameCore] at h
  rcases List.mem_append.1 h with h | h
  · exact not_mem_slashPart hH hcs h
  · rcases List.mem_append.1 h with h | h
    · exact not_mem_slashPart hN hcs h
    · exact hM h

theorem parseNamePart_of_parts (hst ns m t : List Char)
    (hns : '/' ∉ ns) (hm : '/' ∉ m)
    (hnsc : ':' ∉ ns) (hmc : ':' ∉ m) (htc : ':' ∉ t)
    (hhc : t = [] → ':' ∉ hst)
    (h1 : hst ≠ [] → ns ≠ []) (h2 : ns ≠ [] → m ≠ [])
    (h3 : t ≠ [] → m ≠ []) :
    parseNamePart (nameCore ⟨hst, ns, m, t, []⟩ ++
      (if t.isEmpty then [] else ':' :: t)) = ⟨hst, ns, m, t, []⟩ := by
  by_cases ht : t = []
  · subst ht
    have hnc : ':' ∉ nameCore ⟨hst, ns, m, [], []⟩ :=
      not_mem_core ':' (by decide) (hhc rfl) hnsc hmc
    have e1 : cutPromised ':' (nameCore ⟨hst, ns, m, [], []⟩) =
        (nameCore ⟨hst, ns, m, [], []⟩, [], false) :=
      cutPromised_not_found (cutLast_of_not_mem hnc)
    simp only [List.isEmpty_nil, if_true, List.append_nil]
    simp only [parseNamePart, e1]
    rw [parseModelPart_of_parts hst ns m hns hm h1 h2]
  · have hmE : m ≠ [] := h3 ht
    have hncore : nameCore ⟨hst, ns, m, t, []⟩ = nameCore ⟨hst, ns, m, [], []⟩ :=
      rfl
    have hcoreNE : nameCore ⟨hst, ns, m, [], []⟩ ≠ [] := by
      intro hcc
      rw [nameCore] at hcc
      obtain ⟨-, h2'⟩ := List.append_eq_nil.1 hcc
      obtain ⟨-, h3'⟩ := List.append_eq_nil.1 h2'
      exact hmE h3'
    have e0 : cutLast ':' (nameCore ⟨hst, ns, m, [], []⟩ ++ ':' :: t) =
        (nameCore ⟨hst, ns, m, [], []⟩, t, true) := cutLast_append _ htc
    have e1 : cutPromised ':' (nameCore ⟨hst, ns, m, [], []⟩ ++ ':' :: t) =
        (nameCore ⟨hst, ns, m, [], []⟩, t, true) := by
      rw [cutPromised_found e0, orMissing_of_ne hcoreNE, orMissing_of_ne ht]
    have hif : (if t.isEmpty then ([] : List Char) else ':' :: t) = ':' :: t := by
      rw [isEmpty_false_of_ne ht]
      rfl
    rw [hncore, hif]
    simp only [parseNamePart, e1]
    rw [parseModelPart_of_parts hst ns m hns hm h1 h2]

theorem not_mem_tagPart {c : Char} {x : List Char} (hx : c ∉ x)
    (hcs : c ≠ ':') :
    c ∉ (if x.isEmpty then ([] : List Char) else ':' :: x) := by
  split
  · simp
  · intro h
    rcases List.mem_cons.1 h with h | h
    · exact hcs h
    · exact hx h

/-- C2 (counterexample): `{Host: "hh", Model: "mm"}` is valid (no field is
invalid, and `IsValid` imposes no cross-field constraint), but its
`String` form `"hh/mm"` reparses with `"hh"` as the namespace, not the
host. -/
theorem format_parse_not_exact :
    (Name.mk ['h', 'h'] [] ['m', 'm'] [] []).IsValid = true ∧
    ParseNameNoDefaults
        (Name.String (Name.mk ['h', 'h'] [] ['m', 'm'] [] [])) ≠
      Name.mk ['h', 'h'] [] ['m', 'm'] [] [] := by decide

/-- C2 (amended): for a valid `r`, `ParseNameNoDefaults (r.String()) = r`
holds provided the printed form is unambiguous: a non-empty host needs a
non-empty namespace, a non-empty namespace or tag needs a non-empty
model, and a host may contain `:` only when a tag is present. -/
theorem format_parse_exact (r : Name) (hv : r.IsValid = true)
    (h1 : r.Host ≠ [] → r.Namespace ≠ [])
    (h2 : r.Namespace ≠ [] → r.Model ≠ [])
    (h3 : r.Tag ≠ [] → r.Model ≠ [])
    (h4 : r.Tag = [] → ':' ∉ r.Host) :
    ParseNameNoDefaults r.String = r := by
  obtain ⟨-, vH, vN, vM, vT, vD⟩ := (isValid_iff r).1 hv
  have mem : ∀ (k : partKind) (p : List Char),
      (p ≠ [] → isValidPart k p = true) → '/' ∉ p ∧ '@' ∉ p := by
    intro k p hp
    by_cases he : p = []
    · subst he
      simp
    · exact ⟨(valid_part_not_mem (hp he)).1, (valid_part_not_mem (hp he)).2.1⟩
  have memc : ∀ (k : partKind) (p : List Char), k ≠ kindHost →
      (p ≠ [] → isValidPart k p = true) → ':' ∉ p := by
    intro k p hk hp
    by_cases he : p = []
    · subst he
      simp
    · rcases (valid_part_not_mem (hp he)).2.2 with h | h
      · exact absurd h hk
      · exact h
  rcases r with ⟨hst, ns, m, t, d⟩
  obtain ⟨hhS, hhA⟩ := mem kindHost hst vH
  obtain ⟨hnsS, hnsA⟩ := mem kindNamespace ns vN
  obtain ⟨hmS, hmA⟩ := mem kindModel m vM
  obtain ⟨htS, htA⟩ := mem kindTag t vT
  obtain ⟨hdS, hdA⟩ := mem kindDigest d vD
  have hnsC : ':' ∉ ns := memc kindNamespace ns (by decide) vN
  have hmC : ':' ∉ m := memc kindModel m (by decide) vM
  have htC : ':' ∉ t := memc kindTag t (by decide) vT
  rw [string_eq_core]
  by_cases hd : d = []
  · subst hd
    simp only [List.isEmpty_nil, if_true, List.append_nil]
    have hAt : '@' ∉ nameCore ⟨hst, ns, m, t, []⟩ ++
        (if t.isEmpty then [] else ':' :: t) := by
      intro h
      rcases List.mem_append.1 h with h | h
      · exact not_mem_core '@' (by decide) hhA hnsA hmA h
      · exact not_mem_tagPart htA (by decide) h
    have e0 := cutLast_of_not_mem hAt
    simp only [ParseNameNoDefaults, e0]
    rw [parseNamePart_of_parts hst ns m t hnsS hmS hnsC hmC htC h4 h1 h2 h3]
    rfl
  · have hdig : (if d.isEmpty then ([] : List Char) else '@' :: d) =
        '@' :: d := by
      rw [isEmpty_false_of_ne hd]
      rfl
    have hnc : nameCore ⟨hst, ns, m, t, d⟩ = nameCore ⟨hst, ns, m, t, []⟩ := rfl
    rw [hdig, hnc, ← List.append_assoc]
    have e0 := cutLast_append
      (nameCore ⟨hst, ns, m, t, []⟩ ++ (if t.isEmpty then [] else ':' :: t)) hdA
    simp only [ParseNameNoDefaults, e0]
    rw [parseNamePart_of_parts hst ns m t hnsS hmS hnsC hmC htC h4 h1 h2 h3,
      isEmpty_false_of_ne hd]
    rfl

/-- Witness for the amended C2 at `r = {Host: "hh", Namespace: "nn",
Model: "mm"}`. -/
theorem format_parse_exact_witness :
    (Name.mk ['h', 'h'] ['n', 'n'] ['m', 'm'] [] []).IsValid = true ∧
    ParseNameNoDefaults
        (Name.String (Name.mk ['h', 'h'] ['n', 'n'] ['m', 'm'] [] [])) =
      Name.mk ['h', 'h'] ['n', 'n'] ['m', 'm'] [] [] :=
  ⟨by decide, format_parse_exact (Name.mk ['h', 'h'] ['n', 'n'] ['m', 'm'] [] [])
    (by decide) (by decide) (by decide) (by decide) (by decide)⟩

/-! ## Empty promised parts (C9) -/

theorem cmpOr_missing (b : List Char) : cmpOr MissingPart b = MissingPart := rfl

theorem both_invalid_of_missing {n : Name} (o : Name)
    (h : n.Host = MissingPart ∨ n.Namespace = MissingPart ∨
      n.Model = MissingPart ∨ n.Tag = MissingPart ∨
      n.RawDigest = MissingPart) :
    n.IsValid = false ∧ (n.Merge o).IsValid = false := by
  rcases h with h | h | h | h | h
  · exact ⟨isValid_false_of_host h,
      isValid_false_of_host (by simp [Name.Merge, h, cmpOr_missing])⟩
  · exact ⟨isValid_false_of_namespace h,
      isValid_false_of_namespace (by simp [Name.Merge, h, cmpOr_missing])⟩
  · exact ⟨isValid_false_of_model h,
      isValid_false_of_model (by simp [Name.Merge, h])⟩
  · exact ⟨isValid_false_of_tag h,
      isValid_false_of_tag (by simp [Name.Merge, h, cmpOr_missing])⟩
  · exact ⟨isValid_false_of_rawDigest h,
      isValid_false_of_rawDigest (by simp [Name.Merge, h])⟩

theorem parseModelPart_missing_of_flags (u : List Char)
    (h : (((cutLast '/' u).2.2 &&
        ((cutLast '/' u).1.isEmpty || (cutLast '/' u).2.1.isEmpty)) ||
      ((cutLast '/' ((cutPromised '/' u).1)).2.2 &&
        ((cutLast '/' ((cutPromised '/' u).1)).1.isEmpty ||
          (cutLast '/' ((cutPromised '/' u).1)).2.1.isEmpty))) = true) :
    (parseModelPart u).Host = MissingPart ∨
      (parseModelPart u).Namespace = MissingPart ∨
      (parseModelPart u).Model = MissingPart := by
  rcases hq : cutLast '/' u with ⟨b, a, pm⟩
  cases pm with
  | false =>
    obtain ⟨hb, -, -⟩ := cutLast_not_found '/' hq
    rw [cutPromised_not_found hq] at h
    simp only [hq, hb] at h
    simp at h
  | true =>
    have hcp := cutPromised_found hq
    by_cases ha : a = []
    · refine Or.inr (Or.inr ?_)
      subst ha
      simp [parseModelPart, hcp, orMissing_nil]
      split <;> rfl
    · by_cases hb : b = []
      · refine Or.inr (Or.inl ?_)
        subst hb
        have h3 : cutPromised '/' MissingPart = (MissingPart, [], false) := by
          decide
        simp [parseModelPart, hcp, orMissing_nil, orMissing_of_ne ha, h3]
      · rw [hcp] at h
        simp only [hq, orMissing_of_ne hb] at h
        rw [isEmpty_false_of_ne hb, isEmpty_false_of_ne ha] at h
        simp only [Bool.or_false, Bool.and_false, Bool.false_or,
          Bool.true_and, Bool.false_and] at h
        rcases hq2 : cutLast '/' b with ⟨b2, a2, pn⟩
        cases pn with
        | false =>
          rw [hq2] at h
          simp at h
        | true =>
          rw [hq2] at h
          have hcp2 := cutPromised_found hq2
          simp only [Bool.true_and, Bool.or_eq_true] at h
          rcases h with h | h
          · -- second cut: empty before → missing host
            refine Or.inl ?_
            have hb2 : b2 = [] := by
              cases b2 with
              | nil => rfl
              | cons x xs => simp at h
            subst hb2
            by_cases ha2 : a2 = []
            · subst ha2
              simp [parseModelPart, hcp, orMissing_of_ne hb,
                orMissing_of_ne ha, hcp2, orMissing_nil]
            · simp [parseModelPart, hcp, orMissing_of_ne hb,
                orMissing_of_ne ha, hcp2, orMissing_nil, orMissing_of_ne ha2]
          · -- second cut: empty after → missing namespace
            refine Or.inr (Or.inl ?_)
            have ha2 : a2 = [] := by
              cases a2 with
              | nil => rfl
              | cons x xs => simp at h
            subst ha2
            by_cases hb2 : b2 = []
            · subst hb2
              simp [parseModelPart, hcp, orMissing_of_ne hb,
                orMissing_of_ne ha, hcp2, orMissing_nil]
            · simp [parseModelPart, hcp, orMissing_of_ne hb,
                orMissing_of_ne ha, hcp2, orMissing_nil, orMissing_of_ne hb2]

theorem empty_promise_missing (s : List Char) (h : hasEmptyPromise s = true) :
    (ParseNameNoDefaults s).Host = MissingPart ∨
      (ParseNameNoDefaults s).Namespace = MissingPart ∨
      (ParseNameNoDefaults s).Model = MissingPart ∨
      (ParseNameNoDefaults s).Tag = MissingPart ∨
      (ParseNameNoDefaults s).RawDigest = MissingPart := by
  have hor : ∀ {x y : Bool}, x = true ∨ y = true → (x || y) = true := by
    rintro x y (hx | hx) <;> simp [hx]
  rcases h0 : cutLast '@' s with ⟨s0, rd0, pd⟩
  have hps0 : ParseNameNoDefaults s =
      { parseNamePart s0 with
        RawDigest := if pd && rd0.isEmpty then MissingPart else rd0 } := by
    simp [ParseNameNoDefaults, h0]
  rw [hasEmptyPromise] at h
  simp only [h0] at h
  simp only [Bool.or_eq_true] at h
  rcases h with hA | h
  · refine Or.inr (Or.inr (Or.inr (Or.inr ?_)))
    rw [hps0]
    show (if pd && rd0.isEmpty then MissingPart else rd0) = MissingPart
    simp [hA]
  · rcases h1 : cutLast ':' s0 with ⟨b1, a1, tp⟩
    cases tp with
    | true =>
      have hc1 := cutPromised_found h1
      by_cases hb1 : b1 = []
      · refine Or.inr (Or.inr (Or.inl ?_))
        have hpn : parseNamePart s0 =
            { parseModelPart MissingPart with Tag := orMissing a1 } := by
          subst hb1
          simp [parseNamePart, hc1, orMissing_nil]
        rw [hps0, hpn, parseModelPart_missing]
      · by_cases ha1 : a1 = []
        · refine Or.inr (Or.inr (Or.inr (Or.inl ?_)))
          have hpn : parseNamePart s0 =
              { parseModelPart b1 with Tag := MissingPart } := by
            subst ha1
            simp [parseNamePart, hc1, orMissing_nil, orMissing_of_ne hb1]
          rw [hps0, hpn]
        · have hpn : parseNamePart s0 =
              { parseModelPart b1 with Tag := a1 } := by
            simp [parseNamePart, hc1, orMissing_of_ne hb1, orMissing_of_ne ha1]
          rcases h with hB | h
          · exfalso
            rw [h1] at hB
            simp [isEmpty_false_of_ne hb1, isEmpty_false_of_ne ha1] at hB
          · simp only [hc1, orMissing_of_ne hb1] at h
            have hmm := parseModelPart_missing_of_flags b1 (hor h)
            rcases hmm with hx | hx | hx
            · exact Or.inl (by rw [hps0, hpn]; exact hx)
            · exact Or.inr (Or.inl (by rw [hps0, hpn]; exact hx))
            · exact Or.inr (Or.inr (Or.inl (by rw [hps0, hpn]; exact hx)))
    | false =>
      obtain ⟨hb1, ha1, -⟩ := cutLast_not_found ':' h1
      have hc1 := cutPromised_not_found h1
      have hpn : parseNamePart s0 = { parseModelPart s0 with Tag := [] } := by
        simp [parseNamePart, hc1, hb1, ha1]
      rcases h with hB | h
      · exfalso
        rw [h1] at hB
        simp at hB
      · simp only [hc1, hb1] at h
        have hmm := parseModelPart_missing_of_flags s0 (hor h)
        rcases hmm with hx | hx | hx
        · exact Or.inl (by rw [hps0, hpn]; exact hx)
        · exact Or.inr (Or.inl (by rw [hps0, hpn]; exact hx))
        · exact Or.inr (Or.inr (Or.inl (by rw [hps0, hpn]; exact hx)))

/-- C9 (counterexample): the input `"@dd"` contains a separator (`@`)
whose adjacent name-side content is empty, yet both `ParseNameNoDefaults`
and `ParseName` produce a *valid* name (the name side of `@` is not
promised). -/
theorem at_with_empty_name_side_valid :
    (ParseNameNoDefaults ['@', 'd', 'd']).IsValid = true ∧
    (ParseName ['@', 'd', 'd']).IsValid = true := by decide

/-- C9 (amended): any input in which one of the parser's cuts finds a
separator whose promised adjacent content is empty — `@` with an empty
digest side, or `:` or `/` with an empty side — yields a name that is
invalid both with and without defaulting. -/
theorem empty_promise_invalid (s : List Char)
    (h : hasEmptyPromise s = true) :
    (ParseNameNoDefaults s).IsValid = false ∧
      (ParseName s).IsValid = false :=
  both_invalid_of_missing DefaultName (empty_promise_missing s h)

/-- Witness for the amended C9 at the input `"model:"`. -/
theorem empty_promise_invalid_witness :
    hasEmptyPromise ['m', 'o', 'd', 'e', 'l', ':'] = true ∧
    (ParseNameNoDefaults ['m', 'o', 'd', 'e', 'l', ':']).IsValid = false ∧
    (ParseName ['m', 'o', 'd', 'e', 'l', ':']).IsValid = false :=
  ⟨by decide,
    (empty_promise_invalid ['m', 'o', 'd', 'e', 'l', ':'] (by decide)).1,
    (empty_promise_invalid ['m', 'o', 'd', 'e', 'l', ':'] (by decide)).2⟩

/-! ## The digest codec on well-formed hex (C6) -/

theorem lowerHex_facts : ∀ c ∈ lowerHexChars,
    fromHexChar c = some (hexVal c) ∧ hexVal c < 16 ∧
      hexDigitChar (hexVal c) = c := by decide

theorem lowerHex_not_sep : ∀ c ∈ lowerHexChars, c ≠ ':' ∧ c ≠ '-' := by decide

theorem hexDecodeAux_lowerHex :
    ∀ (room : Nat) (h : List Char), h.length = 2 * room →
      (∀ c ∈ h, c ∈ lowerHexChars) →
      ∃ bs, hexDecodeAux room h = some (bs, false) ∧ bs.length = room ∧
        hexEncode bs = h := by
  intro room
  induction room with
  | zero =>
    intro h hlen _
    have hnil : h = [] := List.length_eq_zero.1 (by omega)
    subst hnil
    exact ⟨[], rfl, rfl, rfl⟩
  | succ r ih =>
    intro h hlen hhex
    cases h with
    | nil =>
      simp at hlen
    | cons p t =>
      cases t with
      | nil =>
        simp at hlen
        omega
      | cons q rest =>
        have hrest : rest.length = 2 * r := by
          simp at hlen
          omega
        obtain ⟨hp1, hp2, hp3⟩ := lowerHex_facts p (hhex p (by simp))
        obtain ⟨hq1, hq2, hq3⟩ := lowerHex_facts q (hhex q (by simp))
        obtain ⟨bs, hd, hl, he⟩ := ih rest hrest
          (fun c hc => hhex c (by simp [hc]))
        refine ⟨(hexVal p * 16 + hexVal q) :: bs, ?_, by simp [hl], ?_⟩
        · simp only [hexDecodeAux, hp1, hq1, hd]
        · rw [hexEncode]
          have hv1 : (hexVal p * 16 + hexVal q) / 16 = hexVal p := by omega
          have hv2 : (hexVal p * 16 + hexVal q) % 16 = hexVal q := by omega
          rw [hv1, hv2, hp3, hq3, he]

/-- C6: for any 64-character lowercase-hex string, the `sha256:` and
`sha256-` forms parse to the same digest, and formatting the result gives
the `-`-joined canonical form. -/
theorem parseDigest_colon_dash (h : List Char) (hlen : h.length = 64)
    (hhex : ∀ c ∈ h, c ∈ lowerHexChars) :
    ParseDigest (sha256Lit ++ ':' :: h) = ParseDigest (sha256Lit ++ '-' :: h) ∧
    Option.map Digest.String (ParseDigest (sha256Lit ++ ':' :: h)) =
      some (sha256Lit ++ '-' :: h) := by
  have hnc : ':' ∉ h := fun hm => (lowerHex_not_sep ':' (hhex ':' hm)).1 rfl
  have hnd : '-' ∉ h := fun hm => (lowerHex_not_sep '-' (hhex '-' hm)).2 rfl
  obtain ⟨bs, hdec, hl, he⟩ := hexDecodeAux_lowerHex 32 h (by omega) hhex
  have e1 : cutLast ':' (sha256Lit ++ ':' :: h) = (sha256Lit, h, true) :=
    cutLast_append sha256Lit hnc
  have e2 : cutLast ':' (sha256Lit ++ '-' :: h) =
      (sha256Lit ++ '-' :: h, [], false) := by
    apply cutLast_of_not_mem
    intro hm
    rcases List.mem_append.1 hm with hm | hm
    · exact absurd hm (by decide)
    · rcases List.mem_cons.1 hm with hm | hm
      · exact absurd hm (by decide)
      · exact hnc hm
  have e3 : cutLast '-' (sha256Lit ++ '-' :: h) = (sha256Lit, h, true) :=
    cutLast_append sha256Lit hnd
  have hparse : ParseDigest (sha256Lit ++ ':' :: h) =
      some ⟨DigestTypeSHA256, bs⟩ := by
    simp [ParseDigest, e1, hdec, hl]
  have hparse2 : ParseDigest (sha256Lit ++ '-' :: h) =
      some ⟨DigestTypeSHA256, bs⟩ := by
    simp [ParseDigest, e2, e3, hdec, hl]
  refine ⟨by rw [hparse, hparse2], ?_⟩
  rw [hparse]
  show some (Digest.String ⟨DigestTypeSHA256, bs⟩) =
    some (sha256Lit ++ '-' :: h)
  rw [Digest.String]
  rw [show DigestType.toChars DigestTypeSHA256 = sha256Lit from rfl, he]

/-- Witness for C6 at the 64-character hash `"aa…a"`. -/
theorem parseDigest_colon_dash_witness :
    ParseDigest (sha256Lit ++ ':' :: List.replicate 64 'a') =
      ParseDigest (sha256Lit ++ '-' :: List.replicate 64 'a') ∧
    Option.map Digest.String
        (ParseDigest (sha256Lit ++ ':' :: List.replicate 64 'a')) =
      some (sha256Lit ++ '-' :: List.replicate 64 'a') :=
  ⟨(parseDigest_colon_dash (List.replicate 64 'a') (by decide) (by decide)).1,
    (parseDigest_colon_dash (List.replicate 64 'a') (by decide) (by decide)).2⟩

/-- C3: `IsValid` is true exactly when the model or raw digest is
non-empty and every non-empty field passes the part validator of its
positional kind (host, namespace, model, tag, digest respectively). -/
theorem isValid_characterized (n : Name) :
    n.IsValid = true ↔
      ((n.Model ≠ [] ∨ n.RawDigest ≠ []) ∧
        (n.Host ≠ [] → isValidPart kindHost n.Host = true) ∧
        (n.Namespace ≠ [] → isValidPart kindNamespace n.Namespace = true) ∧
        (n.Model ≠ [] → isValidPart kindModel n.Model = true) ∧
        (n.Tag ≠ [] → isValidPart kindTag n.Tag = true) ∧
        (n.RawDigest ≠ [] → isValidPart kindDigest n.RawDigest = true)) :=
  isValid_iff n

/-- C4: `isValidPart` accepts exactly the strings within the kind's length
bounds (host 1–350, tag 1–80, namespace/model/digest 2–80) whose first
byte is an ASCII letter or digit and whose remaining bytes are
alphanumeric, `_` or `-`, or `.` outside namespaces, or `:` only in
hosts. -/
theorem isValidPart_characterized (k : partKind) (s : List Char) :
    isValidPart k s = true ↔
      (specLenOK k s.length ∧
        ∃ c cs, s = c :: cs ∧ specAlnum c ∧ ∀ b ∈ cs, specMiddle k b) :=
  isValidPart_iff k s
